import Mathlib

/-!
Verification of the channel-token FIFO queue (`queue.go`, package `generic`).

The queue is implemented with two capacity-1 channels:
  items chan []T      -- holds a non-empty slice exactly when the queue has elements
  empty chan struct{}  -- holds a unit token exactly when the queue is empty

A capacity-1 channel is modelled as an `Option` (`some` = a value is buffered,
`none` = the channel is vacant).  A receive succeeds exactly when the channel is
`some`, a send succeeds exactly when it is `none`; a send into a full channel,
or a receive from a vacant one, blocks.  An operation that blocks forever (or
panics, which likewise never returns normally) is modelled by the operation
returning `Option.none` at the outer level.

A Go `select` fires one of its *ready* branches.  We index each channel-aware
operation by the branch the `select` fired (`Branch`); the operation returns
`none` when that branch was not ready (so that completed call = `some` result
for some branch choice).  Context cancellation is a `Bool` sample of
`ctx.Done()` / `ctx.Err()`: `Put` samples it twice (once in the `select`, once
at the final `return ctx.Err()`), so it takes two samples `c0`, `c1`.
-/

namespace GoGeneric

/-- Which branch of a Go `select` fired: the receive from `q.items`, the
receive from `q.empty`, or the receive from `ctx.Done()`. -/
inductive Branch : Type
  | items
  | empty
  | done
deriving DecidableEq, Repr

/-- State of a `FiFo[T]`: the contents of the two capacity-1 channels.
`items = some s` means the slice `s` is buffered in `q.items`;
`empty = true` means the unit token is buffered in `q.empty`. -/
structure FiFo (T : Type) : Type where
  items : Option (List T)
  empty : Bool
deriving DecidableEq, Repr

/-- `NewFiFo` makes both channels and sends the unit token into `empty`
("start empty"). -/
def NewFiFo (T : Type) : FiFo T := { items := none, empty := true }

/-- Invariant I1: exactly one of the two slots holds a token. -/
def I1 {T : Type} (q : FiFo T) : Bool :=
  q.items.isSome != q.empty

/-- Invariant I3: the slice in `items`, when present, is non-empty. -/
def I3 {T : Type} (q : FiFo T) : Bool :=
  match q.items with
  | some s => !s.isEmpty
  | none => true

/-- The queue state invariant: I1 and I3 together. -/
def Valid {T : Type} (q : FiFo T) : Bool :=
  I1 q && I3 q

/-- `Put` (Enqueue): `select` over `items` receive, `empty` receive and
`ctx.Done()`; on a token branch append `x` and send the slice into `items`
(that send can only block if `items` is still occupied, which cannot happen
on the `items` branch, where this caller just vacated it), then
`return ctx.Err()` with the cancellation re-sampled (`c1`).  On the `done`
branch return `ctx.Err()` sampled in the select (`c0`), which is non-nil.
Result: `some (new state, non-nil error?)`, or `none` when the chosen branch
was not ready or the republish blocks. -/
def Put {T : Type} (q : FiFo T) (x : T) (c0 c1 : Bool) : Branch → Option (FiFo T × Bool)
  | .items =>
    match q.items with
    | some s => some ({ items := some (s ++ [x]), empty := q.empty }, c1)
    | none => none
  | .empty =>
    if q.empty then
      match q.items with
      | none => some ({ items := some [x], empty := false }, c1)
      | some _ => none
    else none
  | .done => if c0 then some (q, true) else none

/-- `TryPut`: `select` with a `default` branch, so it never blocks.  Exactly
one token branch can be ready in a valid state; we resolve the (invalid-state)
tie in favour of `items`, matching one of the two possible scheduler choices.
On failure (no token instantly available) the `default` branch returns
`false` with no channel operation performed. -/
def TryPut {T : Type} (q : FiFo T) (x : T) : FiFo T × Bool :=
  match q.items with
  | some s => ({ items := some (s ++ [x]), empty := q.empty }, true)
  | none =>
    if q.empty then ({ items := some [x], empty := false }, true)
    else (q, false)

/-- `Get` (Dequeue): `select` over `items` receive and `ctx.Done()` only —
there is no `empty` branch, so `Get` on an empty queue blocks until an
element arrives or the context is cancelled.  On the `items` branch it takes
`x := s[0]` (a panic if `s` is empty, which never returns — modelled `none`;
unreachable under I3), shortens the slice, and sends the unit token into
`empty` when the rest is empty (blocking if `empty` is occupied; unreachable
under I1) or the rest into `items` otherwise (that slot was just vacated).
Result: `some (new state, dequeued value?, non-nil error?)`. -/
def Get {T : Type} (q : FiFo T) (c : Bool) : Branch → Option (FiFo T × Option T × Bool)
  | .items =>
    match q.items with
    | some [] => none
    | some (x :: rest) =>
      if rest.isEmpty then
        if q.empty then none
        else some ({ items := none, empty := true }, some x, false)
      else some ({ items := some rest, empty := q.empty }, some x, false)
    | none => none
  | .empty => none
  | .done => if c then some (q, none, true) else none

/-- `TryGet`: outer `select` over `items` receive with a `default` branch
returning `(zero, false)` — modelled as value `none` — with no side effect.
On the `items` branch it takes the head (`s[0]` panics on an empty slice:
outer `none`; unreachable under I3) and republishes with NON-blocking sends:
`select { case ch <- v: default: }`.  The send of the unit token into `empty`
falls to its `default` (dropping the token) exactly when `empty` is already
occupied; the send of the shortened slice into `items` targets the slot this
caller just vacated, so its `default` is unreachable.  The returned `Bool`
flag records whether a republish fell to a `default` branch (token dropped). -/
def TryGet {T : Type} (q : FiFo T) : Option (FiFo T × Option T × Bool) :=
  match q.items with
  | none => some (q, none, false)
  | some [] => none
  | some (x :: rest) =>
    if rest.isEmpty then
      if q.empty then some ({ items := none, empty := true }, some x, true)
      else some ({ items := none, empty := true }, some x, false)
    else some ({ items := some rest, empty := q.empty }, some x, false)

/-- `Size`: `select` over the two token channels (no cancellation branch);
reads the length (`0` on the `empty` branch) and republishes the same token
into the slot it came from via `defer` (the slot was just vacated, so the
send succeeds). -/
def Size {T : Type} (q : FiFo T) : Branch → Option (FiFo T × Nat)
  | .items =>
    match q.items with
    | some s => some ({ items := some s, empty := q.empty }, s.length)
    | none => none
  | .empty => if q.empty then some ({ items := q.items, empty := true }, 0) else none
  | .done => none

/-- `IsEmpty`: the non-blocking hint `len(q.empty) == 1`. -/
def IsEmpty {T : Type} (q : FiFo T) : Bool :=
  q.empty

/-- `Snapshot`: `select` over `items` receive, `empty` receive and
`ctx.Done()`.  On the `done` branch return `(nil, ctx.Err())` with the queue
untouched.  On a token branch, copy the slice (`append([]T(nil), s...)`; the
copy of the `empty` branch's nil slice is empty) and restore the token to the
slot it came from (just vacated, so the send succeeds). -/
def Snapshot {T : Type} (q : FiFo T) (c : Bool) : Branch → Option (FiFo T × List T × Bool)
  | .items =>
    match q.items with
    | some s => some ({ items := some s, empty := q.empty }, s, false)
    | none => none
  | .empty => if q.empty then some ({ items := q.items, empty := true }, [], false) else none
  | .done => if c then some (q, [], true) else none

/-- The token branch available in a state: `items` when the slice token is
present, `empty` otherwise.  In a valid state this is the unique ready token
branch of every `select`. -/
def tokBr {T : Type} (q : FiFo T) : Branch :=
  if q.items.isSome then .items else .empty

/-- One completed, non-cancelled `Put` in a sequential execution: the
`select` fires the available token branch (both cancellation samples
`false`).  `none` when no token is available (the call would block). -/
def putStep {T : Type} (q : FiFo T) (x : T) : Option (FiFo T) :=
  (Put q x false false (tokBr q)).map Prod.fst

/-- One completed, non-cancelled `Get` in a sequential execution: the
`select` fires the `items` branch.  `none` when the call would block or
panic. -/
def getStep {T : Type} (q : FiFo T) : Option (FiFo T × T) :=
  match Get q false .items with
  | some (q', some x, _) => some (q', x)
  | _ => none

/-- Run a sequence of completed non-cancelled Puts, one per element. -/
def putAll {T : Type} (q : FiFo T) (xs : List T) : Option (FiFo T) :=
  xs.foldlM putStep q

/-- Run `n` completed non-cancelled Gets, collecting the dequeued values in
order. -/
def getAll {T : Type} (q : FiFo T) : Nat → Option (FiFo T × List T)
  | 0 => some (q, [])
  | n + 1 =>
    match getStep q with
    | some (q', x) => (getAll q' n).map (fun p => (p.1, x :: p.2))
    | none => none

/-- The logical contents of the queue: the slice in `items`, or `[]` when
the queue is empty. -/
def contents {T : Type} (q : FiFo T) : List T :=
  q.items.getD []

/-- One completed call of any of the six operations, as a relation between
the queue state before and after. -/
inductive Step {T : Type} : FiFo T → FiFo T → Prop
  | put : ∀ q x c0 c1 br q' e, Put q x c0 c1 br = some (q', e) → Step q q'
  | tryPut : ∀ q x, Step q (TryPut q x).1
  | get : ∀ q c br q' r e, Get q c br = some (q', r, e) → Step q q'
  | tryGet : ∀ (q q' : FiFo T) r d, TryGet q = some (q', r, d) → Step q q'
  | size : ∀ q br q' n, Size q br = some (q', n) → Step q q'
  | snap : ∀ q c br q' s e, Snapshot q c br = some (q', s, e) → Step q q'

/-- A state reachable from a fresh queue by some finite sequence of
completed operations. -/
def Reachable {T : Type} (q : FiFo T) : Prop :=
  Relation.ReflTransGen Step (NewFiFo T) q

theorem valid_empty_of_some {T : Type} {q : FiFo T} {s : List T}
    (hv : Valid q = true) (hq : q.items = some s) : q.empty = false := by
  simp [Valid, I1, I3, hq, bne] at hv
  exact hv.1

theorem valid_empty_of_none {T : Type} {q : FiFo T}
    (hv : Valid q = true) (hq : q.items = none) : q.empty = true := by
  simp [Valid, I1, I3, hq, bne] at hv
  exact hv

theorem valid_ne_nil {T : Type} {q : FiFo T} {s : List T}
    (hv : Valid q = true) (hq : q.items = some s) : s ≠ [] := by
  simp [Valid, I1, I3, hq, bne] at hv
  simpa using hv.2

theorem valid_iff {T : Type} {q : FiFo T} :
    Valid q = true ↔
      ((∃ s, q.items = some s ∧ s ≠ [] ∧ q.empty = false) ∨
        (q.items = none ∧ q.empty = true)) := by
  constructor
  · intro hv
    cases hq : q.items with
    | none => exact Or.inr ⟨rfl, valid_empty_of_none hv hq⟩
    | some s => exact Or.inl ⟨s, rfl, valid_ne_nil hv hq, valid_empty_of_some hv hq⟩
  · rintro (⟨s, hq, hs, he⟩ | ⟨hq, he⟩)
    · simp [Valid, I1, I3, hq, he, bne, hs]
    · simp [Valid, I1, I3, hq, he, bne]

theorem put_inv {T : Type} {q : FiFo T} {x : T} {c0 c1 : Bool} {br : Branch}
    {q' : FiFo T} {e : Bool} (h : Put q x c0 c1 br = some (q', e)) :
    (∃ s, q.items = some s ∧ q' = { items := some (s ++ [x]), empty := q.empty } ∧ e = c1) ∨
    (q.items = none ∧ q.empty = true ∧ q' = { items := some [x], empty := false } ∧ e = c1) ∨
    (br = .done ∧ c0 = true ∧ q' = q ∧ e = true) := by
  cases br with
  | items =>
    cases hq : q.items with
    | none => simp [Put, hq] at h
    | some s =>
      simp [Put, hq] at h
      exact Or.inl ⟨s, rfl, h.1.symm, h.2.symm⟩
  | empty =>
    cases hqe : q.empty with
    | false => simp [Put, hqe] at h
    | true =>
      cases hq : q.items with
      | some s => simp [Put, hqe, hq] at h
      | none =>
        simp [Put, hqe, hq] at h
        exact Or.inr (Or.inl ⟨rfl, rfl, h.1.symm, h.2.symm⟩)
  | done =>
    cases hc : c0 with
    | false => simp [Put, hc] at h
    | true =>
      simp [Put, hc] at h
      exact Or.inr (Or.inr ⟨rfl, rfl, h.1.symm, h.2⟩)

theorem get_inv {T : Type} {q : FiFo T} {c : Bool} {br : Branch}
    {q' : FiFo T} {r : Option T} {e : Bool} (h : Get q c br = some (q', r, e)) :
    (∃ x rest, q.items = some (x :: rest) ∧ r = some x ∧ e = false ∧
      ((rest = [] ∧ q.empty = false ∧ q' = { items := none, empty := true }) ∨
        (rest ≠ [] ∧ q' = { items := some rest, empty := q.empty }))) ∨
    (br = .done ∧ c = true ∧ q' = q ∧ r = none ∧ e = true) := by
  cases br with
  | items =>
    cases hq : q.items with
    | none => simp [Get, hq] at h
    | some s =>
      cases s with
      | nil => simp [Get, hq] at h
      | cons x rest =>
        cases hrest : rest.isEmpty with
        | true =>
          cases hqe : q.empty with
          | true => simp [Get, hq, hrest, hqe] at h
          | false =>
            simp [Get, hq, hrest, hqe] at h
            refine Or.inl ⟨x, rest, rfl, h.2.1.symm, h.2.2, Or.inl ?_⟩
            exact ⟨List.isEmpty_iff.mp hrest, rfl, h.1.symm⟩
        | false =>
          simp [Get, hq, hrest] at h
          refine Or.inl ⟨x, rest, rfl, h.2.1.symm, h.2.2, Or.inr ?_⟩
          refine ⟨?_, h.1.symm⟩
          intro hnil
          rw [hnil] at hrest
          simp at hrest
  | empty => simp [Get] at h
  | done =>
    cases hc : c with
    | false => simp [Get, hc] at h
    | true =>
      simp [Get, hc] at h
      exact Or.inr ⟨rfl, rfl, h.1.symm, h.2.1.symm, h.2.2⟩

theorem tryGet_inv {T : Type} {q : FiFo T} {q' : FiFo T} {r : Option T} {d : Bool}
    (h : TryGet q = some (q', r, d)) :
    (q.items = none ∧ q' = q ∧ r = none ∧ d = false) ∨
    (∃ x rest, q.items = some (x :: rest) ∧ r = some x ∧
      ((rest = [] ∧ q' = { items := none, empty := true } ∧ d = q.empty) ∨
        (rest ≠ [] ∧ q' = { items := some rest, empty := q.empty } ∧ d = false))) := by
  cases hq : q.items with
  | none =>
    simp [TryGet, hq] at h
    exact Or.inl ⟨rfl, h.1.symm, h.2.1.symm, h.2.2⟩
  | some s =>
    cases s with
    | nil => simp [TryGet, hq] at h
    | cons x rest =>
      cases hrest : rest.isEmpty with
      | true =>
        cases hqe : q.empty with
        | true =>
          simp [TryGet, hq, hrest, hqe] at h
          refine Or.inr ⟨x, rest, rfl, h.2.1.symm, Or.inl ?_⟩
          exact ⟨List.isEmpty_iff.mp hrest, h.1.symm, h.2.2⟩
        | false =>
          simp [TryGet, hq, hrest, hqe] at h
          refine Or.inr ⟨x, rest, rfl, h.2.1.symm, Or.inl ?_⟩
          exact ⟨List.isEmpty_iff.mp hrest, h.1.symm, h.2.2⟩
      | false =>
        simp [TryGet, hq, hrest] at h
        refine Or.inr ⟨x, rest, rfl, h.2.1.symm, Or.inr ⟨?_, h.1.symm, h.2.2⟩⟩
        intro hnil
        rw [hnil] at hrest
        simp at hrest

theorem size_state {T : Type} {q : FiFo T} {br : Branch} {q' : FiFo T} {n : Nat}
    (h : Size q br = some (q', n)) : q' = q := by
  cases br with
  | items =>
    cases hq : q.items with
    | none => simp [Size, hq] at h
    | some s =>
      simp [Size, hq] at h
      rw [← h.1, ← hq]
  | empty =>
    cases hqe : q.empty with
    | false => simp [Size, hqe] at h
    | true =>
      simp [Size, hqe] at h
      rw [← h.1, ← hqe]
  | done => simp [Size] at h

theorem snap_state {T : Type} {q : FiFo T} {c : Bool} {br : Branch}
    {q' : FiFo T} {cp : List T} {e : Bool}
    (h : Snapshot q c br = some (q', cp, e)) : q' = q := by
  cases br with
  | items =>
    cases hq : q.items with
    | none => simp [Snapshot, hq] at h
    | some s =>
      simp [Snapshot, hq] at h
      rw [← h.1, ← hq]
  | empty =>
    cases hqe : q.empty with
    | false => simp [Snapshot, hqe] at h
    | true =>
      simp [Snapshot, hqe] at h
      rw [← h.1, ← hqe]
  | done =>
    cases hc : c with
    | false => simp [Snapshot, hc] at h
    | true =>
      simp [Snapshot, hc] at h
      exact h.1.symm

theorem valid_newFiFo (T : Type) : Valid (NewFiFo T) = true := rfl

theorem valid_put {T : Type} {q : FiFo T} {x : T} {c0 c1 : Bool} {br : Branch}
    {q' : FiFo T} {e : Bool} (hv : Valid q = true)
    (h : Put q x c0 c1 br = some (q', e)) : Valid q' = true := by
  rcases put_inv h with ⟨s, hq, hq', _⟩ | ⟨hq, hqe, hq', _⟩ | ⟨_, _, hq', _⟩
  · have he := valid_empty_of_some hv hq
    rw [hq']
    exact valid_iff.mpr (Or.inl ⟨s ++ [x], rfl, by simp, he⟩)
  · rw [hq']
    exact valid_iff.mpr (Or.inl ⟨[x], rfl, by simp, rfl⟩)
  · rw [hq']
    exact hv

theorem valid_tryPut {T : Type} {q : FiFo T} (x : T) (hv : Valid q = true) :
    Valid (TryPut q x).1 = true := by
  cases hq : q.items with
  | some s =>
    have he := valid_empty_of_some hv hq
    simp only [TryPut, hq]
    exact valid_iff.mpr (Or.inl ⟨s ++ [x], rfl, by simp, he⟩)
  | none =>
    have he := valid_empty_of_none hv hq
    simp only [TryPut, hq, he, if_true]
    exact valid_iff.mpr (Or.inl ⟨[x], rfl, by simp, rfl⟩)

theorem valid_get {T : Type} {q : FiFo T} {c : Bool} {br : Branch}
    {q' : FiFo T} {r : Option T} {e : Bool} (hv : Valid q = true)
    (h : Get q c br = some (q', r, e)) : Valid q' = true := by
  rcases get_inv h with ⟨x, rest, hq, _, _, ⟨_, _, hq'⟩ | ⟨hrest, hq'⟩⟩ | ⟨_, _, hq', _, _⟩
  · rw [hq']
    exact valid_iff.mpr (Or.inr ⟨rfl, rfl⟩)
  · have he := valid_empty_of_some hv hq
    rw [hq']
    exact valid_iff.mpr (Or.inl ⟨rest, rfl, hrest, he⟩)
  · rw [hq']
    exact hv

theorem valid_tryGet {T : Type} {q : FiFo T} {q' : FiFo T} {r : Option T} {d : Bool}
    (hv : Valid q = true) (h : TryGet q = some (q', r, d)) : Valid q' = true := by
  rcases tryGet_inv h with ⟨_, hq', _, _⟩ | ⟨x, rest, hq, _, ⟨_, hq', _⟩ | ⟨hrest, hq', _⟩⟩
  · rw [hq']
    exact hv
  · rw [hq']
    exact valid_iff.mpr (Or.inr ⟨rfl, rfl⟩)
  · have he := valid_empty_of_some hv hq
    rw [hq']
    exact valid_iff.mpr (Or.inl ⟨rest, rfl, hrest, he⟩)

theorem valid_step {T : Type} {q q' : FiFo T} (hv : Valid q = true)
    (h : Step q q') : Valid q' = true := by
  cases h with
  | put _ _ _ _ _ _ hp => exact valid_put hv hp
  | tryPut x => exact valid_tryPut x hv
  | get _ _ _ _ _ hg => exact valid_get hv hg
  | tryGet _ _ _ ht => exact valid_tryGet hv ht
  | size _ _ _ hs => rw [size_state hs]; exact hv
  | snap _ _ _ _ _ hs => rw [snap_state hs]; exact hv

theorem valid_reachable {T : Type} {q : FiFo T} (h : Reachable q) :
    Valid q = true := by
  induction h with
  | refl => exact valid_newFiFo T
  | tail _ hstep ih => exact valid_step ih hstep

theorem contents_some {T : Type} {q : FiFo T} {s : List T}
    (hq : q.items = some s) : contents q = s := by
  simp [contents, hq]

theorem contents_none {T : Type} {q : FiFo T}
    (hq : q.items = none) : contents q = [] := by
  simp [contents, hq]

theorem putStep_eq {T : Type} {q : FiFo T} (x : T) (hv : Valid q = true) :
    putStep q x = some { items := some (contents q ++ [x]), empty := false } := by
  cases hq : q.items with
  | some s =>
    have he := valid_empty_of_some hv hq
    simp [putStep, tokBr, hq, Put, contents, he]
  | none =>
    have he := valid_empty_of_none hv hq
    simp [putStep, tokBr, hq, Put, contents, he]

theorem getStep_eq {T : Type} {q : FiFo T} {x : T} {rest : List T}
    (hv : Valid q = true) (hq : q.items = some (x :: rest)) :
    getStep q =
      some (if rest.isEmpty then { items := none, empty := true }
            else { items := some rest, empty := false }, x) := by
  have he := valid_empty_of_some hv hq
  cases hrest : rest.isEmpty with
  | true => simp [getStep, Get, hq, hrest, he]
  | false => simp [getStep, Get, hq, hrest, he]

theorem putAll_some {T : Type} (xs : List T) :
    ∀ q : FiFo T, Valid q = true →
      putAll q xs =
        some (if xs.isEmpty then q
              else { items := some (contents q ++ xs), empty := false }) := by
  induction xs with
  | nil =>
    intro q hv
    simp [putAll]
  | cons x xs ih =>
    intro q hv
    have hv1 : Valid ({ items := some (contents q ++ [x]), empty := false } : FiFo T) = true :=
      valid_iff.mpr (Or.inl ⟨contents q ++ [x], rfl, by simp, rfl⟩)
    have hrec := ih _ hv1
    rw [putAll, List.foldlM_cons, putStep_eq x hv]
    rw [putAll] at hrec
    simp only [Option.bind_eq_bind, Option.some_bind]
    rw [hrec]
    cases xs with
    | nil => simp
    | cons y ys => simp [contents, List.append_assoc]

theorem getAll_drain {T : Type} :
    ∀ (n : Nat) (q : FiFo T), Valid q = true → (contents q).length = n →
      getAll q n = some (NewFiFo T, contents q) := by
  intro n
  induction n with
  | zero =>
    intro q hv hlen
    have hq : q.items = none := by
      cases hq : q.items with
      | none => rfl
      | some s =>
        rw [contents_some hq] at hlen
        exact absurd (List.length_eq_zero.mp hlen) (valid_ne_nil hv hq)
    have he := valid_empty_of_none hv hq
    have hnew : q = NewFiFo T := by
      rcases q with ⟨i, e⟩
      simp only [NewFiFo]
      simp only at hq he
      rw [hq, he]
    rw [hnew]
    rfl
  | succ n ih =>
    intro q hv hlen
    cases hq : q.items with
    | none =>
      rw [contents_none hq] at hlen
      simp at hlen
    | some s =>
      cases s with
      | nil => exact absurd rfl (valid_ne_nil hv hq)
      | cons x rest =>
        have hg := getStep_eq hv hq
        rw [contents_some hq] at hlen
        cases hrest : rest.isEmpty with
        | true =>
          have hrnil : rest = [] := List.isEmpty_iff.mp hrest
          subst hrnil
          simp only [List.length_cons, List.length_nil] at hlen
          have hn : n = 0 := by omega
          subst hn
          rw [hrest] at hg
          simp only [if_true] at hg
          simp [getAll, hg, contents_some hq, NewFiFo]
        | false =>
          have hrne : rest ≠ [] := by
            intro hh
            rw [hh] at hrest
            simp at hrest
          have hv1 : Valid ({ items := some rest, empty := false } : FiFo T) = true :=
            valid_iff.mpr (Or.inl ⟨rest, rfl, hrne, rfl⟩)
          have hlen1 : (contents ({ items := some rest, empty := false } : FiFo T)).length = n := by
            rw [contents_some rfl]
            simp only [List.length_cons] at hlen
            omega
          have hrec := ih _ hv1 hlen1
          rw [hrest] at hg
          simp only [Bool.false_eq_true, if_false] at hg
          rw [contents_some rfl] at hrec
          simp [getAll, hg, hrec, contents_some hq]

theorem valid_none_of_empty {T : Type} {q : FiFo T}
    (hv : Valid q = true) (he : q.empty = true) : q.items = none := by
  rcases valid_iff.mp hv with ⟨s, hq, _, hemp⟩ | ⟨hq, _⟩
  · rw [hemp] at he
    exact absurd he (by simp)
  · exact hq

theorem size_val {T : Type} {q q' : FiFo T} {n : Nat} {br : Branch}
    (hv : Valid q = true) (h : Size q br = some (q', n)) :
    n = (contents q).length := by
  cases br with
  | items =>
    cases hq : q.items with
    | none => simp [Size, hq] at h
    | some s =>
      simp [Size, hq] at h
      rw [contents_some hq]
      exact h.2.symm
  | empty =>
    cases hqe : q.empty with
    | false => simp [Size, hqe] at h
    | true =>
      have hq := valid_none_of_empty hv hqe
      simp [Size, hqe] at h
      rw [contents_none hq]
      exact h.2.symm
  | done => simp [Size] at h

theorem size_tok {T : Type} {q : FiFo T} (hv : Valid q = true) :
    Size q (tokBr q) = some (q, (contents q).length) := by
  cases hq : q.items with
  | some s =>
    have ht : tokBr q = .items := by simp [tokBr, hq]
    have hrec : ({ items := some s, empty := q.empty } : FiFo T) = q := by rw [← hq]
    rw [ht]
    simp only [Size, hq, contents_some hq, hrec]
  | none =>
    have ht : tokBr q = .empty := by simp [tokBr, hq]
    have he := valid_empty_of_none hv hq
    have hrec : ({ items := q.items, empty := true } : FiFo T) = q := by rw [← he]
    rw [ht]
    simp only [Size, he, if_true, contents_none hq, hrec, List.length_nil]

/-- C1: FIFO order — starting from a fresh queue, a sequence of completed
non-cancelled Puts of the elements of `xs` (one per element, no interleaving)
followed by `xs.length` completed non-cancelled Gets returns exactly the
elements of `xs` in the order they were Put, and leaves the queue fresh
(empty) again. -/
theorem put_get_fifo_order {T : Type} (xs : List T) :
    ∃ qf : FiFo T, putAll (NewFiFo T) xs = some qf ∧
      getAll qf xs.length = some (NewFiFo T, xs) := by
  have h := putAll_some xs (NewFiFo T) (valid_newFiFo T)
  cases xs with
  | nil => exact ⟨NewFiFo T, by simpa using h, rfl⟩
  | cons x xs' =>
    refine ⟨{ items := some (x :: xs'), empty := false }, ?_, ?_⟩
    · simpa [contents, NewFiFo] using h
    · have hv : Valid ({ items := some (x :: xs'), empty := false } : FiFo T) = true :=
        valid_iff.mpr (Or.inl ⟨x :: xs', rfl, by simp, rfl⟩)
      have hd := getAll_drain (x :: xs').length _ hv (by rw [contents_some rfl])
      rw [contents_some rfl] at hd
      exact hd

/-- C2: the invariant I1 (exactly one slot holds a token) together with I3
(the items slice, when present, is non-empty) holds for a fresh queue and is
preserved by every completed Put, TryPut, Get, TryGet, Size and Snapshot
(IsEmpty does not touch the state at all). -/
theorem queue_ops_preserve_invariants {T : Type} (q qP qG qT qS qN : FiFo T)
    (x : T) (c0 c1 c c' : Bool) (brP brG brS brN : Branch)
    (eP : Bool) (rG : Option T) (eG : Bool) (rT : Option T) (dT : Bool)
    (nS : Nat) (sN : List T) (eN : Bool)
    (hv : Valid q = true)
    (hP : Put q x c0 c1 brP = some (qP, eP))
    (hG : Get q c brG = some (qG, rG, eG))
    (hT : TryGet q = some (qT, rT, dT))
    (hS : Size q brS = some (qS, nS))
    (hN : Snapshot q c' brN = some (qN, sN, eN)) :
    Valid (NewFiFo T) = true ∧ Valid qP = true ∧ Valid (TryPut q x).1 = true ∧
      Valid qG = true ∧ Valid qT = true ∧ Valid qS = true ∧ Valid qN = true :=
  ⟨valid_newFiFo T, valid_put hv hP, valid_tryPut x hv, valid_get hv hG,
    valid_tryGet hv hT, by rw [size_state hS]; exact hv,
    by rw [snap_state hN]; exact hv⟩

theorem queue_ops_preserve_invariants_witness :
    Valid (NewFiFo Nat) = true ∧
      Valid ({ items := some [1, 2, 3], empty := false } : FiFo Nat) = true ∧
      Valid (TryPut ({ items := some [1, 2], empty := false } : FiFo Nat) 3).1 = true ∧
      Valid ({ items := some [2], empty := false } : FiFo Nat) = true ∧
      Valid ({ items := some [2], empty := false } : FiFo Nat) = true ∧
      Valid ({ items := some [1, 2], empty := false } : FiFo Nat) = true ∧
      Valid ({ items := some [1, 2], empty := false } : FiFo Nat) = true :=
  queue_ops_preserve_invariants
    { items := some [1, 2], empty := false }
    { items := some [1, 2, 3], empty := false }
    { items := some [2], empty := false }
    { items := some [2], empty := false }
    { items := some [1, 2], empty := false }
    { items := some [1, 2], empty := false }
    3 false false false false
    .items .items .items .items
    false (some 1) false (some 1) false 2 [1, 2] false
    (by decide) (by decide) (by decide) (by decide) (by decide) (by decide)

/-- C3: once Put has acquired a token (the select fired a non-`done`
branch), it appends the element and republishes into the items slot
unconditionally; the error it returns is the cancellation sample taken
after the append (`c1`), so the element is enqueued even when Put reports
a cancellation error. -/
theorem put_enqueues_even_when_cancelled {T : Type} (q q' : FiFo T) (x : T)
    (c0 c1 e : Bool) (br : Branch) (hv : Valid q = true)
    (hbr : br ≠ Branch.done) (h : Put q x c0 c1 br = some (q', e)) :
    q'.items = some (contents q ++ [x]) ∧ q'.empty = false ∧ e = c1 := by
  rcases put_inv h with ⟨s, hq, hq', he⟩ | ⟨hq, _, hq', he⟩ | ⟨hd, _, _, _⟩
  · have hemp := valid_empty_of_some hv hq
    rw [hq', contents_some hq]
    exact ⟨rfl, hemp, he⟩
  · rw [hq', contents_none hq]
    exact ⟨rfl, rfl, he⟩
  · exact absurd hd hbr

theorem put_enqueues_even_when_cancelled_witness :
    ({ items := some [7], empty := false } : FiFo Nat).items =
        some (contents (NewFiFo Nat) ++ [7]) ∧
      ({ items := some [7], empty := false } : FiFo Nat).empty = false ∧
      (true : Bool) = true :=
  put_enqueues_even_when_cancelled (NewFiFo Nat)
    { items := some [7], empty := false } 7 true true true .empty
    (by decide) (by decide) (by decide)

/-- C4: Get with an already-cancelled signal on an empty queue completes
only through the cancellation branch (which is ready): it returns the
cancellation error, removes no token, fabricates no element, and leaves the
queue state completely unchanged. -/
theorem get_cancelled_on_empty {T : Type} (q q' : FiFo T) (r : Option T)
    (e : Bool) (br : Branch) (hq : q.items = none)
    (h : Get q true br = some (q', r, e)) :
    q' = q ∧ r = none ∧ e = true ∧
      Get q true Branch.done = some (q, none, true) := by
  rcases get_inv h with ⟨x, rest, hq', _, _, _⟩ | ⟨_, _, hq', hr, he⟩
  · rw [hq] at hq'
    exact absurd hq' (by simp)
  · exact ⟨hq', hr, he, rfl⟩

theorem get_cancelled_on_empty_witness :
    NewFiFo Nat = NewFiFo Nat ∧ (none : Option Nat) = none ∧ true = true ∧
      Get (NewFiFo Nat) true Branch.done = some (NewFiFo Nat, none, true) :=
  get_cancelled_on_empty (NewFiFo Nat) (NewFiFo Nat) none true Branch.done
    (by decide) (by decide)

/-- C5: Snapshot either completes through the cancellation branch — only
ready when cancelled — returning a cancellation error with the queue
untouched, or completes through a token branch, returning a copy of the
full current sequence (empty for the empty queue) with no error, restoring
the token to the slot it came from; in every case the state after equals
the state before. -/
theorem snapshot_reads_without_disturbing {T : Type} (q q' : FiFo T)
    (c e : Bool) (cp : List T) (br : Branch) (hv : Valid q = true)
    (h : Snapshot q c br = some (q', cp, e)) :
    q' = q ∧ (br = Branch.done → cp = [] ∧ e = true ∧ c = true) ∧
      (br ≠ Branch.done → cp = contents q ∧ e = false) := by
  refine ⟨snap_state h, ?_, ?_⟩
  · intro hd
    subst hd
    cases hc : c with
    | false => simp [Snapshot, hc] at h
    | true =>
      simp [Snapshot, hc] at h
      exact ⟨h.2.1, h.2.2, rfl⟩
  · intro hnd
    cases br with
    | done => exact absurd rfl hnd
    | items =>
      cases hq : q.items with
      | none => simp [Snapshot, hq] at h
      | some s =>
        simp [Snapshot, hq] at h
        rw [contents_some hq]
        exact ⟨h.2.1.symm, h.2.2⟩
    | empty =>
      cases hqe : q.empty with
      | false => simp [Snapshot, hqe] at h
      | true =>
        have hq := valid_none_of_empty hv hqe
        simp [Snapshot, hqe] at h
        rw [contents_none hq]
        exact ⟨h.2.1, h.2.2⟩

theorem snapshot_reads_without_disturbing_witness :
    ({ items := some [4], empty := false } : FiFo Nat) =
        { items := some [4], empty := false } ∧
      (Branch.items = Branch.done → [4] = ([] : List Nat) ∧ false = true ∧
        false = true) ∧
      (Branch.items ≠ Branch.done →
        [4] = contents ({ items := some [4], empty := false } : FiFo Nat) ∧
          false = false) :=
  snapshot_reads_without_disturbing { items := some [4], empty := false }
    { items := some [4], empty := false } false false [4] Branch.items
    (by decide) (by decide)

/-- C6: Size acquires whichever token is present, returns the length of the
held sequence (0 when empty), and republishes the same token, leaving the
state identical; after the completed Puts of `xs` from a fresh queue Size
returns `xs.length`, and after draining them all by Gets Size returns 0 and
IsEmpty returns true. -/
theorem size_frame_and_counts {T : Type} (q q' : FiFo T) (n : Nat)
    (br : Branch) (xs : List T) (qf qd : FiFo T) (ys : List T)
    (hv : Valid q = true)
    (hs : Size q br = some (q', n))
    (hput : putAll (NewFiFo T) xs = some qf)
    (hget : getAll qf xs.length = some (qd, ys)) :
    q' = q ∧ n = (contents q).length ∧
      Size qf (tokBr qf) = some (qf, xs.length) ∧
      Size qd (tokBr qd) = some (qd, 0) ∧ IsEmpty qd = true := by
  have key : Valid qf = true ∧ contents qf = xs := by
    cases xs with
    | nil =>
      have h0 : putAll (NewFiFo T) ([] : List T) = some (NewFiFo T) := rfl
      rw [h0] at hput
      have hqf := Option.some.inj hput
      rw [← hqf]
      exact ⟨valid_newFiFo T, rfl⟩
    | cons z zs =>
      rw [putAll_some (z :: zs) (NewFiFo T) (valid_newFiFo T)] at hput
      have hqf := Option.some.inj hput
      simp only [List.isEmpty_cons, Bool.false_eq_true, if_false] at hqf
      rw [← hqf]
      refine ⟨valid_iff.mpr (Or.inl ⟨_, rfl, by simp, rfl⟩), ?_⟩
      simp [contents, NewFiFo]
  have hdr := getAll_drain xs.length qf key.1 (by rw [key.2])
  rw [hdr] at hget
  have hqd : NewFiFo T = qd := congrArg Prod.fst (Option.some.inj hget)
  refine ⟨size_state hs, size_val hv hs, ?_, ?_, ?_⟩
  · have hst := size_tok key.1
    rw [key.2] at hst
    exact hst
  · rw [← hqd]
    rfl
  · rw [← hqd]
    rfl

theorem size_frame_and_counts_witness :
    ({ items := some [9], empty := false } : FiFo Nat) =
        { items := some [9], empty := false } ∧
      1 = (contents ({ items := some [9], empty := false } : FiFo Nat)).length ∧
      Size ({ items := some [1, 2], empty := false } : FiFo Nat)
          (tokBr ({ items := some [1, 2], empty := false } : FiFo Nat)) =
        some ({ items := some [1, 2], empty := false }, [1, 2].length) ∧
      Size ({ items := none, empty := true } : FiFo Nat)
          (tokBr ({ items := none, empty := true } : FiFo Nat)) =
        some ({ items := none, empty := true }, 0) ∧
      IsEmpty ({ items := none, empty := true } : FiFo Nat) = true :=
  size_frame_and_counts { items := some [9], empty := false }
    { items := some [9], empty := false } 1 Branch.items [1, 2]
    { items := some [1, 2], empty := false } { items := none, empty := true }
    [1, 2] (by decide) (by decide) (by decide) (by decide)

/-- C7: failure of the non-blocking variants has no side effect, each on
whatever state it occurs in: a TryPut that returns false leaves its state
unchanged, and a TryGet that returns a not-found result (no value) — as on
the ordinary empty queue — leaves its state unchanged and takes no
fallback-default branch; neither blocks (TryPut is a total function, and
TryGet completes on every state whose items slice is non-empty when
present). -/
theorem try_ops_fail_without_side_effect {T : Type} (qa qb q1 q2 : FiFo T)
    (x : T) (d : Bool)
    (h1 : TryPut qa x = (q1, false))
    (h2 : TryGet qb = some (q2, none, d)) :
    q1 = qa ∧ q2 = qb ∧ d = false := by
  refine ⟨?_, ?_⟩
  · cases hq : qa.items with
    | some s => simp [TryPut, hq] at h1
    | none =>
      cases hqe : qa.empty with
      | true => simp [TryPut, hq, hqe] at h1
      | false =>
        simp [TryPut, hq, hqe] at h1
        exact h1.symm
  · rcases tryGet_inv h2 with ⟨_, hq', _, hd⟩ | ⟨y, rest, _, hr, _⟩
    · exact ⟨hq', hd⟩
    · exact absurd hr (by simp)

theorem try_ops_fail_without_side_effect_witness :
    ({ items := none, empty := false } : FiFo Nat) =
        { items := none, empty := false } ∧
      NewFiFo Nat = NewFiFo Nat ∧ false = false :=
  try_ops_fail_without_side_effect { items := none, empty := false }
    (NewFiFo Nat) { items := none, empty := false } (NewFiFo Nat) 0 false
    (by decide) (by decide)

/-- C8: in a valid state, TryGet's non-blocking republish never falls to a
default branch (the slot it targets is vacant by I1, or was just vacated by
this same caller), so TryGet drops neither the token (the resulting state is
again valid) nor any element (the old contents equal the returned element,
if any, followed by the new contents). -/
theorem tryget_republish_never_defaults {T : Type} (q q' : FiFo T)
    (r : Option T) (d : Bool) (hv : Valid q = true)
    (h : TryGet q = some (q', r, d)) :
    d = false ∧ Valid q' = true ∧ contents q = r.toList ++ contents q' := by
  rcases tryGet_inv h with ⟨hq, hq', hr, hd⟩ | ⟨y, rest, hq, hr, hcase⟩
  · rw [hq', hr, hd]
    exact ⟨rfl, hv, rfl⟩
  · have hemp := valid_empty_of_some hv hq
    rcases hcase with ⟨hrest, hq', hd⟩ | ⟨hrest, hq', hd⟩
    · subst hrest
      rw [hq', hr, hd, hemp, contents_some hq]
      exact ⟨rfl, rfl, rfl⟩
    · rw [hq', hr, hd, contents_some hq, hemp]
      refine ⟨rfl, valid_iff.mpr (Or.inl ⟨rest, rfl, hrest, rfl⟩), ?_⟩
      rw [contents_some rfl]
      rfl

theorem tryget_republish_never_defaults_witness :
    false = false ∧
      Valid ({ items := none, empty := true } : FiFo Nat) = true ∧
      contents ({ items := some [5], empty := false } : FiFo Nat) =
        (some 5 : Option Nat).toList ++
          contents ({ items := none, empty := true } : FiFo Nat) :=
  tryget_republish_never_defaults { items := some [5], empty := false }
    { items := none, empty := true } (some 5) false (by decide) (by decide)

/-- C9 as stated is false at this concrete input: the completed sequence
consisting of one Put of 1 from a fresh queue leaves the queue usable, and a
subsequent Put of 2 succeeds, but the subsequent Get returns 1 — the FIFO
head — and not 2, the element that Put enqueued. -/
theorem put_then_get_head_counterexample :
    putAll (NewFiFo Nat) [1] = some { items := some [1], empty := false } ∧
      putStep ({ items := some [1], empty := false } : FiFo Nat) 2 =
        some { items := some [1, 2], empty := false } ∧
      getStep ({ items := some [1, 2], empty := false } : FiFo Nat) =
        some ({ items := some [2], empty := false }, 1) ∧
      (1 : Nat) ≠ 2 := by
  decide

/-- C9 amended: after any finite sequence of completed
Put/Get/TryPut/TryGet/Size/Snapshot calls from a fresh queue, a subsequent
Put with a non-cancelled signal succeeds, and a subsequent non-cancelled Get
succeeds, returning the current head of the queue — which is the element the
Put enqueued whenever the queue was empty at that point.  No sequence of
completed operations leaves the queue permanently unusable. -/
theorem token_never_stranded {T : Type} (q : FiFo T) (x : T)
    (h : Reachable q) :
    ∃ q' q'' y, putStep q x = some q' ∧ getStep q' = some (q'', y) ∧
      (IsEmpty q = true → y = x) := by
  have hv := valid_reachable h
  have hp := putStep_eq x hv
  have hv1 : Valid ({ items := some (contents q ++ [x]), empty := false } : FiFo T) = true :=
    valid_iff.mpr (Or.inl ⟨contents q ++ [x], rfl, by simp, rfl⟩)
  cases hc : contents q with
  | nil =>
    have hq1 : ({ items := some (contents q ++ [x]), empty := false } : FiFo T).items =
        some (x :: []) := by simp [hc]
    have hg := getStep_eq hv1 hq1
    exact ⟨_, _, x, hp, hg, fun _ => rfl⟩
  | cons z zs =>
    have hq1 : ({ items := some (contents q ++ [x]), empty := false } : FiFo T).items =
        some (z :: (zs ++ [x])) := by rw [hc]; rfl
    have hg := getStep_eq hv1 hq1
    refine ⟨_, _, z, hp, hg, ?_⟩
    intro hemp
    have hq := valid_none_of_empty hv hemp
    rw [contents_none hq] at hc
    exact absurd hc (by simp)

theorem token_never_stranded_witness :
    ∃ q' q'' y, putStep (NewFiFo Nat) 1 = some q' ∧
      getStep q' = some (q'', y) ∧ (IsEmpty (NewFiFo Nat) = true → y = 1) :=
  token_never_stranded (NewFiFo Nat) 1 Relation.ReflTransGen.refl

/-- C10: in every sequential single-caller execution from a fresh queue
(i.e. in every reachable state), TryPut returns true — its no-token failure
branch is never taken — and TryGet completes returning found exactly when
the queue is non-empty (equivalently, exactly when the items token is
present), and not-found exactly when it is empty. -/
theorem try_ops_sequential_behaviour {T : Type} (q : FiFo T) (x : T)
    (h : Reachable q) :
    (TryPut q x).2 = true ∧
      ∃ q' r d, TryGet q = some (q', r, d) ∧ r.isSome = !IsEmpty q ∧
        r.isSome = q.items.isSome := by
  have hv := valid_reachable h
  constructor
  · cases hq : q.items with
    | some s => simp [TryPut, hq]
    | none => simp [TryPut, hq, valid_empty_of_none hv hq]
  · rcases valid_iff.mp hv with ⟨s, hq, hs, he⟩ | ⟨hq, he⟩
    · cases s with
      | nil => exact absurd rfl hs
      | cons y rest =>
        cases hrest : rest.isEmpty with
        | true =>
          refine ⟨{ items := none, empty := true }, some y, false, ?_, ?_, ?_⟩
          · simp [TryGet, hq, hrest, he]
          · simp [IsEmpty, he]
          · simp [hq]
        | false =>
          refine ⟨{ items := some rest, empty := q.empty }, some y, false, ?_, ?_, ?_⟩
          · simp [TryGet, hq, hrest]
          · simp [IsEmpty, he]
          · simp [hq]
    · refine ⟨q, none, false, ?_, ?_, ?_⟩
      · simp [TryGet, hq]
      · simp [IsEmpty, he]
      · simp [hq]

theorem try_ops_sequential_behaviour_witness :
    (TryPut (NewFiFo Nat) 1).2 = true ∧
      ∃ q' r d, TryGet (NewFiFo Nat) = some (q', r, d) ∧
        r.isSome = !IsEmpty (NewFiFo Nat) ∧
        r.isSome = (NewFiFo Nat).items.isSome :=
  try_ops_sequential_behaviour (NewFiFo Nat) 1 Relation.ReflTransGen.refl

end GoGeneric
